import Mathlib

/-!
Shallow embedding of `src/app.py` (class `LotteryAnalyzer`): the data model,
the validated append, the frequency / pattern / chaos / enigma analyses and
the weighted-random prediction generator.

Modelling conventions:
* Python ints are `ℤ`; Python `%` and Lean `Int.emod` agree on positive
  moduli, and Python `//` agrees with `Int` division on the nonnegative
  operands that occur for validated draws.
* Python floats are exact rationals `ℚ` (and `ℝ` where `math.log` enters).
* The global `random` source is an explicit tape `t : ℕ → ℕ` with a running
  index; each `random.randint` / `random.choice` call consumes one cell and
  reduces it into the required interval, so every sequence of concrete
  outcomes of the Python calls is realised by some tape.
* The one loop without a syntactic bound (`while len(candidate_numbers) < 5`)
  is a fuelled recursion whose `none` result models not having terminated
  within `fuel` iterations.
-/

/-- One stored draw: the dict `{'regular': [...], 'hot': n}`. -/
structure Draw where
  regular : List ℤ
  hot : ℤ
  deriving Repr, DecidableEq

/-- Embeds `self.max_number` from `__init__`. -/
def max_number : ℤ := 43

/-- Embeds `self.hot_number_max` from `__init__`. -/
def hot_number_max : ℤ := 16

/-- Embeds `add_result`: validate and append one draw.  The Python method mutates
`self.historical_results` only after all four checks pass; here it returns
the new store paired with `none`, or the unchanged store paired with the
raised `ValueError` message. -/
def add_result (self : List Draw) (regular_numbers : List ℤ) (hot_number : ℤ) :
    List Draw × Option String :=
  if regular_numbers.length ≠ 5 then
    (self, some "Se necesitan exactamente 5 números regulares")
  else if regular_numbers.any (fun num => decide (num < 0 ∨ num > max_number)) then
    (self, some "Los números regulares deben estar entre 0 y 43")
  else if hot_number < 1 ∨ hot_number > hot_number_max then
    (self, some "El número caliente debe estar entre 1 y 16")
  else if regular_numbers.dedup.length ≠ regular_numbers.length then
    (self, some "Los números regulares no deben repetirse")
  else
    (self ++ [{ regular := List.insertionSort (· ≤ ·) regular_numbers,
                hot := hot_number }], none)

/-- Building a store by a sequence of `add_result` calls starting from the
empty store of `__init__`; a rejected append leaves the store component
unchanged, exactly as the raised exception does in Python. -/
def buildStore (inputs : List (List ℤ × ℤ)) : List Draw :=
  inputs.foldl (fun st p => (add_result st p.1 p.2).1) []

/-- Insertion-ordered counter: the slice of `collections.Counter` the script
uses.  An association list in first-seen key order; updating an existing key
increments it in place, a new key is appended at the end (CPython dicts
preserve insertion order). -/
def counterUpdate : List (ℤ × ℕ) → ℤ → List (ℤ × ℕ)
  | [], x => [(x, 1)]
  | (k, c) :: rest, x =>
      if k = x then (k, c + 1) :: rest else (k, c) :: counterUpdate rest x

/-- Embeds `Counter.update(iterable)`. -/
def counterUpdateList (c : List (ℤ × ℕ)) (l : List ℤ) : List (ℤ × ℕ) :=
  l.foldl counterUpdate c

/-- The loop of `analyze_frequency`, threading both counters. -/
def freqFold : List Draw → List (ℤ × ℕ) × List (ℤ × ℕ) →
    List (ℤ × ℕ) × List (ℤ × ℕ)
  | [], acc => acc
  | result :: rest, (rf, hf) =>
      freqFold rest (counterUpdateList rf result.regular, counterUpdate hf result.hot)

/-- Embeds `analyze_frequency`: the pair (regular counter, hot counter). -/
def analyze_frequency (self : List Draw) : List (ℤ × ℕ) × List (ℤ × ℕ) :=
  freqFold self ([], [])

/-- Stable descending insertion by count, modelling the tie behaviour of
`Counter.most_common` (`heapq.nlargest` is a stable descending sort by
count, ties kept in iteration order of the counter). -/
def mcInsert (p : ℤ × ℕ) : List (ℤ × ℕ) → List (ℤ × ℕ)
  | [] => [p]
  | q :: rest => if p.2 < q.2 then q :: mcInsert p rest else p :: q :: rest

/-- Stable sort of the counter items by count, descending. -/
def sortByCountDesc (c : List (ℤ × ℕ)) : List (ℤ × ℕ) :=
  c.foldr mcInsert []

/-- Embeds `Counter.most_common(n)`. -/
def most_common (c : List (ℤ × ℕ)) (n : ℕ) : List (ℤ × ℕ) :=
  (sortByCountDesc c).take n

/-- The fields of the dict built by `analyze_patterns`
(`odd_even_frac` embeds the source's odd/even proportion list). -/
structure Patterns where
  sum_regular : List ℤ
  odd_even_frac : List ℚ
  range_distribution : List (List ℕ)
  consecutive_numbers : List Bool
  hot_correlation : List Bool
  deriving Repr, DecidableEq

/-- Per-draw 4-bucket range histogram: `ranges[min(3, num // 11)] += 1`.
Stored regulars are nonnegative, where Python floor division and `Int`
division agree and the computed index is in `0..3`. -/
def bucketCounts (reg : List ℤ) : List ℕ :=
  reg.foldl
    (fun ranges num =>
      ranges.set (min 3 (num / 11)).toNat
        (ranges.getD (min 3 (num / 11)).toNat 0 + 1))
    [0, 0, 0, 0]

/-- The consecutive-numbers scan: sort, then check whether some adjacent
pair differs by exactly 1 (the Python `break` is `List.any`'s
short-circuit). -/
def has_consecutive (reg : List ℤ) : Bool :=
  let sorted_nums := List.insertionSort (· ≤ ·) reg
  (sorted_nums.zip sorted_nums.tail).any (fun p => p.2 - p.1 == 1)

/-- The body of `analyze_patterns` after its guard.  The Python loop appends
one entry per draw to each of the five lists; per-field `map`s build the
same lists. -/
def patterns_core (self : List Draw) : Patterns where
  sum_regular := self.map (fun result => result.regular.sum)
  odd_even_frac := self.map (fun result =>
    ((result.regular.countP (fun num => num % 2 == 1) : ℚ)) / 5)
  range_distribution := self.map (fun result => bucketCounts result.regular)
  consecutive_numbers := self.map (fun result => has_consecutive result.regular)
  hot_correlation := self.map (fun result => result.regular.contains result.hot)

/-- Embeds `analyze_patterns`, with its insufficient-data string as the error. -/
def analyze_patterns (self : List Draw) : Except String Patterns :=
  if self.length < 2 then .error "No hay suficientes datos para analizar patrones"
  else .ok (patterns_core self)

/-- The dict returned by `chaos_theory_analysis`; `is_chaotic` is the
proposition `lyapunov_estimate > 0` asserted by the code's comparison. -/
structure ChaosResult where
  lyapunov_estimate : ℝ
  is_chaotic : Prop

/-- The `total_numbers` accumulation loop: each draw contributes its stored
regulars then its hot number. -/
def total_numbers (self : List Draw) : List ℤ :=
  self.foldl (fun acc result => acc ++ result.regular ++ [result.hot]) []

/-- Embeds `chaos_theory_analysis`.  `math.log(abs(d))` over a nonzero integer `d`
is `Real.log |d|`; a zero difference contributes `0`. -/
noncomputable def chaos_theory_analysis (self : List Draw) :
    Except String ChaosResult :=
  if self.length < 3 then .error "No hay suficientes datos para análisis de caos"
  else
    let tn := total_numbers self
    let differences : List ℤ := (tn.zip tn.tail).map (fun p => |p.2 - p.1|)
    if differences = [] then .error "No se pueden calcular diferencias"
    else
      let lyapunov_estimate : ℝ :=
        (differences.map (fun (d : ℤ) => if d ≠ 0 then Real.log |(d : ℝ)| else 0)).sum /
          (differences.length : ℝ)
      .ok ⟨lyapunov_estimate, lyapunov_estimate > 0⟩

/-- The dict returned by `enigma_inspired_analysis`: the rotation table as
the insertion-ordered pair list of the Python dict, plus the transformed
historical draws. -/
structure EnigmaResult where
  transformation : List (ℤ × ℤ)
  transformed_results : List (List ℤ)
  deriving Repr, DecidableEq

/-- Embeds `enigma_inspired_analysis`.  `transformation[num]` is dict lookup; for
the regulars of validated draws (all in `0..43`) the key is present, and the
`getD 0` default is never used. -/
def enigma_inspired_analysis (self : List Draw) : Except String EnigmaResult :=
  if self = [] then .error "No hay datos para analizar"
  else
    let last_results := ((self.getLast?).getD ⟨[], 0⟩).regular
    let transformation := (List.range (Int.toNat max_number + 1)).map
      (fun (i : ℕ) => ((i : ℤ), ((i : ℤ) + last_results.sum) % (max_number + 1)))
    let transformed_results := self.map (fun result =>
      result.regular.map (fun num => (transformation.lookup num).getD 0))
    .ok ⟨transformation, transformed_results⟩

/-- Embeds `random.randint(a, b)` driven by the tape: the current cell reduced into
`[a, b]`, and the advanced index. -/
def randint (a b : ℤ) (t : ℕ → ℕ) (i : ℕ) : ℤ × ℕ :=
  (a + (t i : ℤ) % (b - a + 1), i + 1)

/-- Embeds `random.choice(l)` driven by the tape (all call sites guard `l ≠ []`,
so the `getD` default is never used). -/
def choice (l : List ℤ) (t : ℕ → ℕ) (i : ℕ) : ℤ × ℕ :=
  (l.getD (t i % l.length) 0, i + 1)

/-- Embeds `most_common_regular`: the keys of the 10 most frequent regular counts. -/
def most_common_regular (self : List Draw) : List ℤ :=
  (most_common (analyze_frequency self).1 10).map (fun p => p.1)

/-- Embeds `most_common_hot`: the keys of the 3 most frequent hot counts. -/
def most_common_hot (self : List Draw) : List ℤ :=
  (most_common (analyze_frequency self).2 3).map (fun p => p.1)

/-- Embeds `avg_range`: componentwise sum of the per-draw range histograms, then
division by their number. -/
def avg_range (self : List Draw) : List ℚ :=
  let dists := (patterns_core self).range_distribution
  let sums := dists.foldl (fun acc dist => List.zipWith (· + ·) acc dist)
    ([0, 0, 0, 0] : List ℕ)
  sums.map (fun (r : ℕ) => (r : ℚ) / (dists.length : ℚ))

/-- Embeds `ranges_to_pick`: bucket `i` appears `max(1, int(avg_range[i] * 2))`
times; Python `int` truncates toward zero, which on these nonnegative
averages is the floor. -/
def ranges_to_pick (avg : List ℚ) : List ℤ :=
  (List.range 4).foldr
    (fun i acc => List.replicate (max 1 (Int.toNat ⌊avg.getD i 0 * 2⌋)) (i : ℤ) ++ acc) []

/-- The `for _ in range(3)` loop adding frequent numbers to the candidate
set (the emptiness of `most_common_regular` is re-checked each iteration). -/
def pickFrequent (mcr : List ℤ) : ℕ → Finset ℤ → (ℕ → ℕ) → ℕ → Finset ℤ × ℕ
  | 0, s, _, i => (s, i)
  | k + 1, s, t, i =>
      if mcr ≠ [] then
        let (v, i1) := choice mcr t i
        pickFrequent mcr k (insert v s) t i1
      else pickFrequent mcr k s t i

/-- The `while attempts < 10` duplicate-rejection loop for one ranged slot:
a fresh pick is inserted and the loop breaks; a duplicate costs one attempt. -/
def fillAttempts (min_val max_val : ℤ) : ℕ → Finset ℤ → (ℕ → ℕ) → ℕ → Finset ℤ × ℕ
  | 0, s, _, i => (s, i)
  | k + 1, s, t, i =>
      let (new_num, i1) := randint min_val max_val t i
      if new_num ∉ s then (insert new_num s, i1)
      else fillAttempts min_val max_val k s t i1

/-- The `for _ in range(nums_needed)` ranged-fill loop (step 5 of the
generator), with its `if len(candidate_numbers) >= 5: break` guard. -/
def rangedFill (pool : List ℤ) : ℕ → Finset ℤ → (ℕ → ℕ) → ℕ → Finset ℤ × ℕ
  | 0, s, _, i => (s, i)
  | k + 1, s, t, i =>
      if 5 ≤ s.card then (s, i)
      else
        let (range_idx, i1) := choice pool t i
        let min_val := range_idx * 11
        let max_val := min max_number ((range_idx + 1) * 11 - 1)
        let (s1, i2) := fillAttempts min_val max_val 10 s t i1
        rangedFill pool k s1 t i2

/-- The unconditional top-up `while len(candidate_numbers) < 5` (step 6),
fuelled: `none` models the loop still running after `fuel` iterations. -/
def topUp : ℕ → Finset ℤ → (ℕ → ℕ) → ℕ → Option (Finset ℤ × ℕ)
  | 0, s, _, i => if 5 ≤ s.card then some (s, i) else none
  | fuel + 1, s, t, i =>
      if 5 ≤ s.card then some (s, i)
      else
        let (new_num, i1) := randint 0 max_number t i
        topUp fuel (insert new_num s) t i1

/-- Embeds `hot_number = random.choice(most_common_hot) if most_common_hot else
random.randint(1, self.hot_number_max)`. -/
def hot_pick (mch : List ℤ) (t : ℕ → ℕ) (i : ℕ) : ℤ × ℕ :=
  if mch ≠ [] then choice mch t i else randint 1 hot_number_max t i

/-- One synthesized prediction, the dict appended to `predictions`. -/
structure Candidate where
  regular : List ℤ
  hot : ℤ
  deriving Repr, DecidableEq

/-- One iteration of the prediction loop: frequent picks, ranged fill,
top-up, sort, hot pick.  The candidate set provably never exceeds 5
elements, so Python's `sorted(list(s)[:5])` is the sorted whole set; the
sorted list is truncated to 5 to keep the slice visible. -/
def generate_candidate (mcr mch pool : List ℤ) (t : ℕ → ℕ) (i fuel : ℕ) :
    Option (Candidate × ℕ) :=
  let (s1, i1) := pickFrequent mcr 3 ∅ t i
  let nums_needed := 5 - s1.card
  let (s2, i2) := rangedFill pool nums_needed s1 t i1
  match topUp fuel s2 t i2 with
  | none => none
  | some (s3, i3) =>
      let final_numbers := (s3.sort (· ≤ ·)).take 5
      let (hot_number, i4) := hot_pick mch t i3
      some (⟨final_numbers, hot_number⟩, i4)

/-- The `for _ in range(num_predictions)` loop, threading the tape index. -/
def gen_list (mcr mch pool : List ℤ) (t : ℕ → ℕ) (fuel : ℕ) :
    ℕ → ℕ → Option (List Candidate × ℕ)
  | 0, i => some ([], i)
  | n + 1, i =>
      match generate_candidate mcr mch pool t i fuel with
      | none => none
      | some (c, i1) =>
          match gen_list mcr mch pool t fuel n i1 with
          | none => none
          | some (cs, i2) => some (c :: cs, i2)

/-- Embeds `predict_next_result(num_predictions)`: the insufficient-data guard
(`avg_sum` and `avg_odd_ratio` are computed by the source but never used
afterwards, so they are omitted), then the candidates.  The inner `Option`
is fuel exhaustion of the top-up loop. -/
def predict_next_result (self : List Draw) (num_predictions : ℕ) (t : ℕ → ℕ)
    (i fuel : ℕ) : Except String (Option (List Candidate)) :=
  if self.length < 3 then
    .error "Se necesitan al menos 3 resultados históricos para hacer predicciones"
  else
    let mcr := most_common_regular self
    let mch := most_common_hot self
    let pool := ranges_to_pick (avg_range self)
    .ok ((gen_list mcr mch pool t fuel num_predictions i).map (fun p => p.1))

/-- Wraps `analyze_frequency` as a method call on the store state: the body reads
`self.historical_results` and never assigns it, so the state component is
returned unchanged. -/
def frequencyOp (self : List Draw) :
    (List (ℤ × ℕ) × List (ℤ × ℕ)) × List Draw :=
  (analyze_frequency self, self)

/-- Wraps `analyze_patterns` as a method call on the store state (no assignment
to `self.historical_results` in the body). -/
def patternsOp (self : List Draw) : Except String Patterns × List Draw :=
  (analyze_patterns self, self)

/-- Wraps `chaos_theory_analysis` as a method call on the store state (no
assignment to `self.historical_results` in the body). -/
noncomputable def chaosOp (self : List Draw) :
    Except String ChaosResult × List Draw :=
  (chaos_theory_analysis self, self)

/-- A draw satisfying the invariants `add_result` enforces. -/
def WFDraw (d : Draw) : Prop :=
  d.regular.length = 5 ∧ d.regular.Nodup ∧
    (∀ x ∈ d.regular, 0 ≤ x ∧ x ≤ max_number) ∧ 1 ≤ d.hot ∧ d.hot ≤ hot_number_max

/-- A store all of whose draws are well formed (every store reachable
through `add_result` is). -/
def WFStore (self : List Draw) : Prop := ∀ d ∈ self, WFDraw d

instance (d : Draw) : Decidable (WFDraw d) := by
  unfold WFDraw; infer_instance

instance (self : List Draw) : Decidable (WFStore self) := by
  unfold WFStore; infer_instance

/-- Total count held by a counter. -/
def counterTotal (c : List (ℤ × ℕ)) : ℕ :=
  (c.map (fun p => p.2)).sum

/-- Key list of a counter, in insertion order. -/
def counterKeys (c : List (ℤ × ℕ)) : List ℤ :=
  c.map (fun p => p.1)

/-- The values the top-up loop would insert during a window of `k`
iterations starting at tape index `i` (each iteration consumes one cell). -/
def topupPicks (t : ℕ → ℕ) : ℕ → ℕ → Finset ℤ
  | _, 0 => ∅
  | i, k + 1 => insert (randint 0 max_number t i).1 (topupPicks t (i + 1) k)

/-- The Lyapunov formula exactly as claim C6 states it: flatten the store
draw-by-draw (regulars then hot, in store order), take consecutive absolute
differences by stream index, accumulate `ln d` for a nonzero difference and
`0` for a zero one, and divide by the total number of differences.  Stated
over indices, independently of the loop shape of the code, to be compared
with the value the code computes. -/
noncomputable def lyapunovSpec (self : List Draw) : ℝ :=
  let flat := self.flatMap (fun d => d.regular ++ [d.hot])
  ((List.range (flat.length - 1)).map (fun (k : ℕ) =>
      let d : ℤ := |flat.getD (k + 1) 0 - flat.getD k 0|
      if d = 0 then (0 : ℝ) else Real.log (d : ℝ))).sum /
    ((flat.length - 1 : ℕ) : ℝ)

/-- Modelled from claim C2's wording only: arithmetic rounding of a
rational (round half up, agreeing with round-half-away-from-zero on the
nonnegative values that occur here), the `round` the claim ascribes to the
pool weights, to be compared with the code's `int` truncation. -/
def ratRound (q : ℚ) : ℤ := ⌊q + 1 / 2⌋

/-- The estimate the code computes, extracted from the success branch of
`chaos_theory_analysis`. -/
noncomputable def chaosEstimate (self : List Draw) : ℝ :=
  let differences : List ℤ :=
    ((total_numbers self).zip (total_numbers self).tail).map (fun p => |p.2 - p.1|)
  (differences.map (fun (d : ℤ) => if d ≠ 0 then Real.log |(d : ℝ)| else 0)).sum /
    (differences.length : ℝ)

/-- Wraps `enigma_inspired_analysis` as a method call on the store state (no
assignment to `self.historical_results` in the body). -/
def enigmaOp (self : List Draw) : Except String EnigmaResult × List Draw :=
  (enigma_inspired_analysis self, self)

/-- A concrete store of three valid draws, used to evaluate the
development: bucket 0 holds 4 regulars in total, bucket 1 six, bucket 2
five, bucket 3 none. -/
def storeA : List Draw :=
  [⟨[0, 1, 2, 3, 11], 1⟩, ⟨[11, 12, 13, 14, 15], 2⟩, ⟨[22, 23, 24, 25, 26], 3⟩]

/-! ### Helper lemmas about the counter model -/

theorem counterTotal_update (c : List (ℤ × ℕ)) (x : ℤ) :
    counterTotal (counterUpdate c x) = counterTotal c + 1 := by
  induction c with
  | nil => simp [counterUpdate, counterTotal]
  | cons q rest ih =>
      obtain ⟨k, n⟩ := q
      by_cases h : k = x
      · simp [counterUpdate, h, counterTotal]
        omega
      · simp [counterUpdate, h, counterTotal] at ih ⊢
        omega

theorem counterTotal_updateList (l : List ℤ) :
    ∀ c : List (ℤ × ℕ), counterTotal (counterUpdateList c l) = counterTotal c + l.length := by
  induction l with
  | nil => intro c; simp [counterUpdateList]
  | cons x rest ih =>
      intro c
      have : counterUpdateList c (x :: rest) = counterUpdateList (counterUpdate c x) rest := rfl
      rw [this, ih, counterTotal_update, List.length_cons]
      omega

theorem counterKeys_update (c : List (ℤ × ℕ)) (x : ℤ) :
    counterKeys (counterUpdate c x) =
      if x ∈ counterKeys c then counterKeys c else counterKeys c ++ [x] := by
  induction c with
  | nil => simp [counterUpdate, counterKeys]
  | cons q rest ih =>
      obtain ⟨k, n⟩ := q
      by_cases h : k = x
      · simp [counterUpdate, h, counterKeys]
      · have hcons : counterUpdate ((k, n) :: rest) x = (k, n) :: counterUpdate rest x := by
          simp [counterUpdate, h]
        have hkeys : counterKeys ((k, n) :: counterUpdate rest x) =
            k :: counterKeys (counterUpdate rest x) := rfl
        have hmemiff : (x ∈ counterKeys ((k, n) :: rest)) ↔ x ∈ counterKeys rest := by
          simp [counterKeys, Ne.symm h]
        rw [hcons, hkeys, ih]
        by_cases hmem : x ∈ counterKeys rest
        · rw [if_pos hmem, if_pos (hmemiff.mpr hmem)]
          rfl
        · rw [if_neg hmem, if_neg (fun hc => hmem (hmemiff.mp hc))]
          rfl

theorem counterKeys_update_sub (c : List (ℤ × ℕ)) (x : ℤ) :
    counterKeys c ⊆ counterKeys (counterUpdate c x) := by
  rw [counterKeys_update]; split <;> simp [List.subset_append_left]

theorem mem_counterKeys_update (c : List (ℤ × ℕ)) (x : ℤ) :
    x ∈ counterKeys (counterUpdate c x) := by
  rw [counterKeys_update]; split <;> simp_all

theorem counterKeys_update_nodup {c : List (ℤ × ℕ)} (h : (counterKeys c).Nodup) (x : ℤ) :
    (counterKeys (counterUpdate c x)).Nodup := by
  rw [counterKeys_update]; split
  · exact h
  · next hmem => simpa [List.nodup_append] using ⟨h, hmem⟩

theorem counterKeys_update_provenance {c : List (ℤ × ℕ)} {x y : ℤ}
    (h : y ∈ counterKeys (counterUpdate c x)) : y ∈ counterKeys c ∨ y = x := by
  rw [counterKeys_update] at h
  split at h
  · exact Or.inl h
  · rcases List.mem_append.1 h with h' | h'
    · exact Or.inl h'
    · simp at h'; exact Or.inr h'

theorem counterKeys_updateList_sub (l : List ℤ) :
    ∀ c : List (ℤ × ℕ), counterKeys c ⊆ counterKeys (counterUpdateList c l) := by
  induction l with
  | nil => intro c; simp [counterUpdateList]
  | cons x rest ih =>
      intro c
      have : counterUpdateList c (x :: rest) = counterUpdateList (counterUpdate c x) rest := rfl
      rw [this]
      exact fun y hy => ih (counterUpdate c x) (counterKeys_update_sub c x hy)

theorem mem_counterKeys_updateList (l : List ℤ) :
    ∀ c : List (ℤ × ℕ), ∀ x ∈ l, x ∈ counterKeys (counterUpdateList c l) := by
  induction l with
  | nil => intro c x hx; simp at hx
  | cons a rest ih =>
      intro c x hx
      have hstep : counterUpdateList c (a :: rest) = counterUpdateList (counterUpdate c a) rest := rfl
      rw [hstep]
      rcases List.mem_cons.1 hx with h | h
      · subst h
        exact counterKeys_updateList_sub rest (counterUpdate c x)
          (mem_counterKeys_update c x)
      · exact ih (counterUpdate c a) x h

theorem counterKeys_updateList_nodup (l : List ℤ) :
    ∀ c : List (ℤ × ℕ), (counterKeys c).Nodup → (counterKeys (counterUpdateList c l)).Nodup := by
  induction l with
  | nil => intro c h; simpa [counterUpdateList] using h
  | cons a rest ih =>
      intro c h
      exact ih (counterUpdate c a) (counterKeys_update_nodup h a)

theorem counterKeys_updateList_provenance (l : List ℤ) :
    ∀ c : List (ℤ × ℕ), ∀ y, y ∈ counterKeys (counterUpdateList c l) →
      y ∈ counterKeys c ∨ y ∈ l := by
  induction l with
  | nil => intro c y h; exact Or.inl h
  | cons a rest ih =>
      intro c y h
      have hstep : counterUpdateList c (a :: rest) = counterUpdateList (counterUpdate c a) rest := rfl
      rw [hstep] at h
      rcases ih (counterUpdate c a) y h with h' | h'
      · rcases counterKeys_update_provenance h' with h'' | h''
        · exact Or.inl h''
        · exact Or.inr (by simp [h''])
      · exact Or.inr (by simp [h'])

/-! ### Lemmas about `analyze_frequency` -/

theorem freqFold_total_fst (s : List Draw) :
    ∀ acc : List (ℤ × ℕ) × List (ℤ × ℕ),
      counterTotal (freqFold s acc).1 =
        counterTotal acc.1 + (s.map (fun d => d.regular.length)).sum := by
  induction s with
  | nil => intro acc; simp [freqFold]
  | cons d rest ih =>
      intro acc
      obtain ⟨rf, hf⟩ := acc
      have hstep : freqFold (d :: rest) (rf, hf) =
          freqFold rest (counterUpdateList rf d.regular, counterUpdate hf d.hot) := rfl
      rw [hstep, ih, List.map_cons, List.sum_cons]
      simp [counterTotal_updateList]
      omega

theorem freqFold_keys_nodup_fst (s : List Draw) :
    ∀ acc : List (ℤ × ℕ) × List (ℤ × ℕ), (counterKeys acc.1).Nodup →
      (counterKeys (freqFold s acc).1).Nodup := by
  induction s with
  | nil => intro acc h; exact h
  | cons d rest ih =>
      intro acc h
      obtain ⟨rf, hf⟩ := acc
      exact ih _ (counterKeys_updateList_nodup d.regular rf h)

theorem freqFold_keys_sub_fst (s : List Draw) :
    ∀ acc : List (ℤ × ℕ) × List (ℤ × ℕ),
      counterKeys acc.1 ⊆ counterKeys (freqFold s acc).1 := by
  induction s with
  | nil => intro acc; exact fun y hy => hy
  | cons d rest ih =>
      intro acc
      obtain ⟨rf, hf⟩ := acc
      exact fun y hy =>
        ih (counterUpdateList rf d.regular, counterUpdate hf d.hot)
          (counterKeys_updateList_sub d.regular rf hy)

theorem freqFold_mem_keys_fst (s : List Draw) :
    ∀ acc : List (ℤ × ℕ) × List (ℤ × ℕ), ∀ d ∈ s, ∀ x ∈ d.regular,
      x ∈ counterKeys (freqFold s acc).1 := by
  induction s with
  | nil => intro acc d hd; simp at hd
  | cons d0 rest ih =>
      intro acc d hd x hx
      obtain ⟨rf, hf⟩ := acc
      rcases List.mem_cons.1 hd with h | h
      · subst h
        exact freqFold_keys_sub_fst rest _
          (mem_counterKeys_updateList d.regular rf x hx)
      · exact ih _ d h x hx

theorem freqFold_keys_provenance_fst (s : List Draw) :
    ∀ acc : List (ℤ × ℕ) × List (ℤ × ℕ), ∀ y, y ∈ counterKeys (freqFold s acc).1 →
      y ∈ counterKeys acc.1 ∨ ∃ d ∈ s, y ∈ d.regular := by
  induction s with
  | nil => intro acc y h; exact Or.inl h
  | cons d0 rest ih =>
      intro acc y h
      obtain ⟨rf, hf⟩ := acc
      rcases ih _ y h with h' | ⟨d, hd, hyd⟩
      · rcases counterKeys_updateList_provenance d0.regular rf y h' with h'' | h''
        · exact Or.inl h''
        · exact Or.inr ⟨d0, by simp, h''⟩
      · exact Or.inr ⟨d, by simp [hd], hyd⟩

theorem freqFold_keys_sub_snd (s : List Draw) :
    ∀ acc : List (ℤ × ℕ) × List (ℤ × ℕ),
      counterKeys acc.2 ⊆ counterKeys (freqFold s acc).2 := by
  induction s with
  | nil => intro acc; exact fun y hy => hy
  | cons d rest ih =>
      intro acc
      obtain ⟨rf, hf⟩ := acc
      exact fun y hy =>
        ih (counterUpdateList rf d.regular, counterUpdate hf d.hot)
          (counterKeys_update_sub hf d.hot hy)

theorem freqFold_mem_keys_snd (s : List Draw) :
    ∀ acc : List (ℤ × ℕ) × List (ℤ × ℕ), ∀ d ∈ s,
      d.hot ∈ counterKeys (freqFold s acc).2 := by
  induction s with
  | nil => intro acc d hd; simp at hd
  | cons d0 rest ih =>
      intro acc d hd
      obtain ⟨rf, hf⟩ := acc
      rcases List.mem_cons.1 hd with h | h
      · subst h
        exact freqFold_keys_sub_snd rest _ (mem_counterKeys_update hf d.hot)
      · exact ih _ d h

theorem freqFold_keys_provenance_snd (s : List Draw) :
    ∀ acc : List (ℤ × ℕ) × List (ℤ × ℕ), ∀ y, y ∈ counterKeys (freqFold s acc).2 →
      y ∈ counterKeys acc.2 ∨ ∃ d ∈ s, y = d.hot := by
  induction s with
  | nil => intro acc y h; exact Or.inl h
  | cons d0 rest ih =>
      intro acc y h
      obtain ⟨rf, hf⟩ := acc
      rcases ih _ y h with h' | ⟨d, hd, hyd⟩
      · rcases counterKeys_update_provenance h' with h'' | h''
        · exact Or.inl h''
        · exact Or.inr ⟨d0, by simp, h''⟩
      · exact Or.inr ⟨d, by simp [hd], hyd⟩

/-! ### Lemmas about `most_common` -/

theorem mcInsert_perm (p : ℤ × ℕ) (l : List (ℤ × ℕ)) :
    List.Perm (mcInsert p l) (p :: l) := by
  induction l with
  | nil => simp [mcInsert]
  | cons q rest ih =>
      by_cases h : p.2 < q.2
      · simp only [mcInsert, if_pos h]
        exact (ih.cons q).trans (List.Perm.swap p q rest)
      · simp [mcInsert, h]

theorem sortByCountDesc_perm (c : List (ℤ × ℕ)) : List.Perm (sortByCountDesc c) c := by
  induction c with
  | nil => simp [sortByCountDesc]
  | cons q rest ih =>
      have hstep : sortByCountDesc (q :: rest) = mcInsert q (sortByCountDesc rest) := rfl
      rw [hstep]
      exact (mcInsert_perm _ _).trans (ih.cons q)

theorem length_sortByCountDesc (c : List (ℤ × ℕ)) :
    (sortByCountDesc c).length = c.length :=
  (sortByCountDesc_perm c).length_eq

theorem most_common_length (c : List (ℤ × ℕ)) (n : ℕ) :
    (most_common c n).length = min n c.length := by
  simp [most_common, length_sortByCountDesc]

theorem most_common_subset {c : List (ℤ × ℕ)} {n : ℕ} {p : ℤ × ℕ}
    (h : p ∈ most_common c n) : p ∈ c :=
  (sortByCountDesc_perm c).mem_iff.1 (List.mem_of_mem_take h)

theorem nodup_subset_length_le {l1 l2 : List ℤ} (h1 : l1.Nodup) (hsub : l1 ⊆ l2) :
    l1.length ≤ l2.length := by
  calc l1.length = l1.toFinset.card := (List.toFinset_card_of_nodup h1).symm
    _ ≤ l2.toFinset.card := Finset.card_le_card (fun x hx => by
        rw [List.mem_toFinset] at hx ⊢; exact hsub hx)
    _ ≤ l2.length := l2.toFinset_card_le

theorem most_common_regular_length {self : List Draw} (h3 : 3 ≤ self.length)
    (hwf : WFStore self) : 5 ≤ (most_common_regular self).length := by
  obtain ⟨d0, rest, rfl⟩ : ∃ d0 rest, self = d0 :: rest := by
    cases self with
    | nil => simp at h3
    | cons a l => exact ⟨a, l, rfl⟩
  have hsub : d0.regular ⊆ counterKeys (analyze_frequency (d0 :: rest)).1 := fun x hx =>
    freqFold_mem_keys_fst (d0 :: rest) ([], []) d0 (by simp) x hx
  have hwf0 := hwf d0 (by simp)
  have h5 : 5 ≤ (counterKeys (analyze_frequency (d0 :: rest)).1).length := by
    have hle := nodup_subset_length_le hwf0.2.1 hsub
    rw [hwf0.1] at hle
    exact hle
  have hclen : (counterKeys (analyze_frequency (d0 :: rest)).1).length =
      ((analyze_frequency (d0 :: rest)).1).length := by
    simp [counterKeys]
  rw [most_common_regular, List.length_map, most_common_length]
  omega

theorem most_common_hot_length {self : List Draw} (h3 : 3 ≤ self.length) :
    1 ≤ (most_common_hot self).length := by
  obtain ⟨d0, rest, rfl⟩ : ∃ d0 rest, self = d0 :: rest := by
    cases self with
    | nil => simp at h3
    | cons a l => exact ⟨a, l, rfl⟩
  have hmem : d0.hot ∈ counterKeys (analyze_frequency (d0 :: rest)).2 :=
    freqFold_mem_keys_snd (d0 :: rest) ([], []) d0 (by simp)
  have hlen : 1 ≤ ((analyze_frequency (d0 :: rest)).2).length := by
    rcases hnil : (analyze_frequency (d0 :: rest)).2 with _ | ⟨p, tail⟩
    · rw [hnil] at hmem; simp [counterKeys] at hmem
    · simp
  rw [most_common_hot, List.length_map, most_common_length]
  omega

theorem most_common_hot_ne_nil {self : List Draw} (h3 : 3 ≤ self.length) :
    most_common_hot self ≠ [] := by
  intro hnil
  have := most_common_hot_length h3
  rw [hnil] at this
  simp at this

theorem most_common_regular_range {self : List Draw} (hwf : WFStore self) :
    ∀ x ∈ most_common_regular self, 0 ≤ x ∧ x ≤ max_number := by
  intro x hx
  rw [most_common_regular] at hx
  obtain ⟨p, hp, rfl⟩ := List.mem_map.1 hx
  have hkey : p.1 ∈ counterKeys (analyze_frequency self).1 :=
    List.mem_map_of_mem _ (most_common_subset hp)
  rcases freqFold_keys_provenance_fst self ([], []) p.1 hkey with h | ⟨d, hd, hmem⟩
  · simp [counterKeys] at h
  · exact (hwf d hd).2.2.1 p.1 hmem

theorem most_common_hot_range {self : List Draw} (hwf : WFStore self) :
    ∀ x ∈ most_common_hot self, 1 ≤ x ∧ x ≤ hot_number_max := by
  intro x hx
  rw [most_common_hot] at hx
  obtain ⟨p, hp, rfl⟩ := List.mem_map.1 hx
  have hkey : p.1 ∈ counterKeys (analyze_frequency self).2 :=
    List.mem_map_of_mem _ (most_common_subset hp)
  rcases freqFold_keys_provenance_snd self ([], []) p.1 hkey with h | ⟨d, hd, hmem⟩
  · simp [counterKeys] at h
  · rw [hmem]
    exact ⟨(hwf d hd).2.2.2.1, (hwf d hd).2.2.2.2⟩

/-! ### Lemmas about the random primitives -/

theorem randint_fst_mem {a b : ℤ} (h : a ≤ b) (t : ℕ → ℕ) (i : ℕ) :
    a ≤ (randint a b t i).1 ∧ (randint a b t i).1 ≤ b := by
  have hne : b - a + 1 ≠ 0 := by omega
  have h0 : 0 ≤ (t i : ℤ) % (b - a + 1) := Int.emod_nonneg _ hne
  have h1 : (t i : ℤ) % (b - a + 1) < b - a + 1 := Int.emod_lt_of_pos _ (by omega)
  constructor <;> simp only [randint] <;> omega

theorem randint_fst_surj {a b v : ℤ} (hav : a ≤ v) (hvb : v ≤ b) (i : ℕ) :
    (randint a b (fun _ => (v - a).toNat) i).1 = v := by
  simp only [randint]
  have hcast : (((v - a).toNat : ℕ) : ℤ) = v - a := Int.toNat_of_nonneg (by omega)
  rw [hcast, Int.emod_eq_of_lt (by omega) (by omega)]
  omega

theorem choice_fst_mem {l : List ℤ} (h : l ≠ []) (t : ℕ → ℕ) (i : ℕ) :
    (choice l t i).1 ∈ l := by
  have hlen : 0 < l.length := List.length_pos.2 h
  have hidx : t i % l.length < l.length := Nat.mod_lt _ hlen
  simp only [choice]
  rw [List.getD_eq_getElem l 0 hidx]
  exact List.getElem_mem hidx

/-! ### Lemmas about `ranges_to_pick` -/

theorem ranges_to_pick_unfold (avg : List ℚ) :
    ranges_to_pick avg =
      List.replicate (max 1 (Int.toNat ⌊avg.getD 0 0 * 2⌋)) (0 : ℤ) ++
      (List.replicate (max 1 (Int.toNat ⌊avg.getD 1 0 * 2⌋)) (1 : ℤ) ++
      (List.replicate (max 1 (Int.toNat ⌊avg.getD 2 0 * 2⌋)) (2 : ℤ) ++
      (List.replicate (max 1 (Int.toNat ⌊avg.getD 3 0 * 2⌋)) (3 : ℤ) ++ []))) := rfl

theorem ranges_to_pick_mem {avg : List ℚ} {x : ℤ} (hx : x ∈ ranges_to_pick avg) :
    0 ≤ x ∧ x ≤ 3 := by
  rw [ranges_to_pick_unfold] at hx
  simp [List.mem_append, List.mem_replicate] at hx
  rcases hx with ⟨-, rfl⟩ | ⟨-, rfl⟩ | ⟨-, rfl⟩ | ⟨-, rfl⟩ <;> norm_num

theorem ranges_to_pick_ne_nil (avg : List ℚ) : ranges_to_pick avg ≠ [] := by
  intro h
  have hlen := congrArg List.length h
  rw [ranges_to_pick_unfold] at hlen
  simp [List.length_append, List.length_replicate] at hlen

theorem ranges_to_pick_count (avg : List ℚ) (i : ℕ) (hi : i < 4) :
    (ranges_to_pick avg).count (i : ℤ) = max 1 (Int.toNat ⌊avg.getD i 0 * 2⌋) := by
  interval_cases i <;>
    simp [ranges_to_pick_unfold, List.count_append, List.count_replicate]

/-! ### Invariants of the candidate-set loops -/

theorem pickFrequent_spec (mcr : List ℤ) :
    ∀ (k : ℕ) (s : Finset ℤ) (t : ℕ → ℕ) (i : ℕ),
      (∀ x ∈ (pickFrequent mcr k s t i).1, x ∈ s ∨ x ∈ mcr) ∧
        (pickFrequent mcr k s t i).1.card ≤ s.card + k := by
  intro k
  induction k with
  | zero => intro s t i; exact ⟨fun x hx => Or.inl hx, by simp [pickFrequent]⟩
  | succ k ih =>
      intro s t i
      by_cases h : mcr ≠ []
      · have hred : pickFrequent mcr (k + 1) s t i =
            pickFrequent mcr k (insert (choice mcr t i).1 s) t (i + 1) := by
          simp [pickFrequent, h, choice]
        rw [hred]
        obtain ⟨hmem, hcard⟩ := ih (insert (choice mcr t i).1 s) t (i + 1)
        refine ⟨fun x hx => ?_, ?_⟩
        · rcases hmem x hx with hx' | hx'
          · rcases Finset.mem_insert.1 hx' with rfl | hx''
            · exact Or.inr (choice_fst_mem h t i)
            · exact Or.inl hx''
          · exact Or.inr hx'
        · have hins := Finset.card_insert_le (choice mcr t i).1 s
          omega
      · have hred : pickFrequent mcr (k + 1) s t i = pickFrequent mcr k s t i := by
          simp [pickFrequent, h]
        rw [hred]
        obtain ⟨hmem, hcard⟩ := ih s t i
        exact ⟨hmem, by omega⟩

theorem fillAttempts_spec {min_val max_val : ℤ} (hmm : min_val ≤ max_val) :
    ∀ (k : ℕ) (s : Finset ℤ) (t : ℕ → ℕ) (i : ℕ),
      (∀ x ∈ (fillAttempts min_val max_val k s t i).1,
          x ∈ s ∨ (min_val ≤ x ∧ x ≤ max_val)) ∧
        (fillAttempts min_val max_val k s t i).1.card ≤ s.card + 1 := by
  intro k
  induction k with
  | zero => intro s t i; exact ⟨fun x hx => Or.inl hx, by simp [fillAttempts]⟩
  | succ k ih =>
      intro s t i
      by_cases h : (randint min_val max_val t i).1 ∈ s
      · have hred : fillAttempts min_val max_val (k + 1) s t i =
            fillAttempts min_val max_val k s t (i + 1) := by
          simp only [randint] at h
          simp [fillAttempts, randint, h]
        rw [hred]
        exact ih s t (i + 1)
      · have hred : fillAttempts min_val max_val (k + 1) s t i =
            (insert (randint min_val max_val t i).1 s, i + 1) := by
          have h' := h
          simp only [randint] at h'
          simp [fillAttempts, h', randint]
        rw [hred]
        refine ⟨fun x hx => ?_, ?_⟩
        · rcases Finset.mem_insert.1 hx with rfl | hx'
          · exact Or.inr (randint_fst_mem hmm t i)
          · exact Or.inl hx'
        · show (insert (randint min_val max_val t i).1 s).card ≤ s.card + 1
          exact Finset.card_insert_le _ _

theorem choice_pool_bounds {pool : List ℤ} (hpool : ∀ x ∈ pool, 0 ≤ x ∧ x ≤ 3)
    (t : ℕ → ℕ) (i : ℕ) : 0 ≤ (choice pool t i).1 ∧ (choice pool t i).1 ≤ 3 := by
  by_cases h : pool = []
  · subst h; simp [choice]
  · exact hpool _ (choice_fst_mem h t i)

theorem rangedFill_spec {pool : List ℤ} (hpool : ∀ x ∈ pool, 0 ≤ x ∧ x ≤ 3) :
    ∀ (k : ℕ) (s : Finset ℤ) (t : ℕ → ℕ) (i : ℕ),
      (∀ x ∈ (rangedFill pool k s t i).1, x ∈ s ∨ (0 ≤ x ∧ x ≤ max_number)) ∧
        (s.card ≤ 5 → (rangedFill pool k s t i).1.card ≤ 5) := by
  intro k
  induction k with
  | zero => intro s t i; exact ⟨fun x hx => Or.inl hx, fun h => by simpa [rangedFill] using h⟩
  | succ k ih =>
      intro s t i
      by_cases hstop : 5 ≤ s.card
      · have hred : rangedFill pool (k + 1) s t i = (s, i) := by
          simp [rangedFill, hstop]
        rw [hred]
        exact ⟨fun x hx => Or.inl hx, fun h => by simpa using h⟩
      · obtain ⟨hri0, hri3⟩ := choice_pool_bounds hpool t i
        have hmm : (choice pool t i).1 * 11 ≤
            min max_number (((choice pool t i).1 + 1) * 11 - 1) := by
          simp only [max_number]
          omega
        have hred : rangedFill pool (k + 1) s t i =
            rangedFill pool k
              (fillAttempts ((choice pool t i).1 * 11)
                (min max_number (((choice pool t i).1 + 1) * 11 - 1)) 10 s t (i + 1)).1
              t
              (fillAttempts ((choice pool t i).1 * 11)
                (min max_number (((choice pool t i).1 + 1) * 11 - 1)) 10 s t (i + 1)).2 := by
          simp [rangedFill, hstop, choice]
        rw [hred]
        obtain ⟨hfmem, hfcard⟩ := fillAttempts_spec hmm 10 s t (i + 1)
        obtain ⟨hmem, hcard⟩ := ih _ t _
        refine ⟨fun x hx => ?_, fun h => ?_⟩
        · rcases hmem x hx with hx' | hx'
          · rcases hfmem x hx' with hx'' | hx''
            · exact Or.inl hx''
            · refine Or.inr ⟨by omega, ?_⟩
              have : min max_number (((choice pool t i).1 + 1) * 11 - 1) ≤ max_number :=
                min_le_left _ _
              omega
          · exact Or.inr hx'
        · exact hcard (by omega)

theorem topUp_spec :
    ∀ (fuel : ℕ) (s : Finset ℤ) (t : ℕ → ℕ) (i : ℕ) (s' : Finset ℤ) (i' : ℕ),
      topUp fuel s t i = some (s', i') →
        (∀ x ∈ s', x ∈ s ∨ (0 ≤ x ∧ x ≤ max_number)) ∧ (s.card ≤ 5 → s'.card = 5) := by
  intro fuel
  induction fuel with
  | zero =>
      intro s t i s' i' h
      by_cases hc : 5 ≤ s.card
      · simp only [topUp, if_pos hc, Option.some.injEq, Prod.mk.injEq] at h
        obtain ⟨rfl, rfl⟩ := h
        exact ⟨fun x hx => Or.inl hx, fun hle => by omega⟩
      · simp [topUp, hc] at h
  | succ fuel ih =>
      intro s t i s' i' h
      by_cases hc : 5 ≤ s.card
      · simp only [topUp, if_pos hc, Option.some.injEq, Prod.mk.injEq] at h
        obtain ⟨rfl, rfl⟩ := h
        exact ⟨fun x hx => Or.inl hx, fun hle => by omega⟩
      · have hred : topUp (fuel + 1) s t i =
            topUp fuel (insert (randint 0 max_number t i).1 s) t (i + 1) := by
          simp [topUp, hc, randint]
        rw [hred] at h
        obtain ⟨hmem, hcard⟩ := ih _ t (i + 1) s' i' h
        have hrand := randint_fst_mem (by norm_num [max_number] : (0 : ℤ) ≤ max_number) t i
        refine ⟨fun x hx => ?_, fun hle => ?_⟩
        · rcases hmem x hx with hx' | hx'
          · rcases Finset.mem_insert.1 hx' with rfl | hx''
            · exact Or.inr hrand
            · exact Or.inl hx''
          · exact Or.inr hx'
        · have := Finset.card_insert_le (randint 0 max_number t i).1 s
          exact hcard (by omega)

theorem hot_pick_range {mch : List ℤ} (hmch : ∀ x ∈ mch, 1 ≤ x ∧ x ≤ hot_number_max)
    (t : ℕ → ℕ) (i : ℕ) :
    1 ≤ (hot_pick mch t i).1 ∧ (hot_pick mch t i).1 ≤ hot_number_max := by
  by_cases h : mch ≠ []
  · rw [hot_pick, if_pos h]
    exact hmch _ (choice_fst_mem h t i)
  · rw [hot_pick, if_neg h]
    exact randint_fst_mem (by norm_num [hot_number_max]) t i

theorem generate_candidate_spec {mcr mch pool : List ℤ}
    (hmcr : ∀ x ∈ mcr, 0 ≤ x ∧ x ≤ max_number)
    (hmch : ∀ x ∈ mch, 1 ≤ x ∧ x ≤ hot_number_max)
    (hpool : ∀ x ∈ pool, 0 ≤ x ∧ x ≤ 3)
    {t : ℕ → ℕ} {i fuel : ℕ} {c : Candidate} {i' : ℕ}
    (h : generate_candidate mcr mch pool t i fuel = some (c, i')) :
    c.regular.length = 5 ∧ c.regular.Nodup ∧ c.regular.Sorted (· ≤ ·) ∧
      (∀ x ∈ c.regular, 0 ≤ x ∧ x ≤ max_number) ∧
      1 ≤ c.hot ∧ c.hot ≤ hot_number_max := by
  rcases hp : pickFrequent mcr 3 ∅ t i with ⟨s1, i1⟩
  have hs1 := pickFrequent_spec mcr 3 ∅ t i
  simp only [hp] at hs1
  obtain ⟨hs1mem, hs1card⟩ := hs1
  rcases hq : rangedFill pool (5 - s1.card) s1 t i1 with ⟨s2, i2⟩
  have hs2 := rangedFill_spec hpool (5 - s1.card) s1 t i1
  simp only [hq] at hs2
  obtain ⟨hs2mem, hs2card⟩ := hs2
  rw [generate_candidate] at h
  rw [hp] at h
  simp only [hq] at h
  rcases htop : topUp fuel s2 t i2 with _ | ⟨s3, i3⟩
  · rw [htop] at h
    simp at h
  · rw [htop] at h
    simp only [] at h
    rcases hh : hot_pick mch t i3 with ⟨hv, i4⟩
    rw [hh] at h
    simp only [Option.some.injEq, Prod.mk.injEq] at h
    obtain ⟨rfl, rfl⟩ : c = ⟨(s3.sort (· ≤ ·)).take 5, hv⟩ ∧ i4 = i' := ⟨h.1.symm, h.2⟩
    obtain ⟨hs3mem, hs3card⟩ := topUp_spec fuel s2 t i2 s3 i3 htop
    have hcard5 : s3.card = 5 := by
      apply hs3card
      apply hs2card
      have : (∅ : Finset ℤ).card = 0 := rfl
      omega
    have hsortlen : (s3.sort (· ≤ ·)).length = 5 := by
      rw [Finset.length_sort, hcard5]
    have htake : (s3.sort (· ≤ ·)).take 5 = s3.sort (· ≤ ·) := by
      apply List.take_of_length_le
      omega
    have hrange : ∀ x ∈ s3, 0 ≤ x ∧ x ≤ max_number := by
      intro x hx
      rcases hs3mem x hx with hx' | hx'
      · rcases hs2mem x hx' with hx'' | hx''
        · rcases hs1mem x hx'' with hx3 | hx3
          · simp at hx3
          · exact hmcr x hx3
        · exact hx''
      · exact hx'
    have hhot := hot_pick_range hmch t i3
    rw [hh] at hhot
    refine ⟨?_, ?_, ?_, ?_, hhot.1, hhot.2⟩
    · show ((s3.sort (· ≤ ·)).take 5).length = 5
      rw [htake, hsortlen]
    · show ((s3.sort (· ≤ ·)).take 5).Nodup
      rw [htake]; exact s3.sort_nodup (· ≤ ·)
    · show ((s3.sort (· ≤ ·)).take 5).Sorted (· ≤ ·)
      rw [htake]; exact s3.sort_sorted (· ≤ ·)
    · show ∀ x ∈ (s3.sort (· ≤ ·)).take 5, 0 ≤ x ∧ x ≤ max_number
      rw [htake]
      intro x hx
      exact hrange x ((Finset.mem_sort (· ≤ ·)).1 hx)

theorem gen_list_spec {mcr mch pool : List ℤ} {t : ℕ → ℕ} {fuel : ℕ}
    (hmcr : ∀ x ∈ mcr, 0 ≤ x ∧ x ≤ max_number)
    (hmch : ∀ x ∈ mch, 1 ≤ x ∧ x ≤ hot_number_max)
    (hpool : ∀ x ∈ pool, 0 ≤ x ∧ x ≤ 3) :
    ∀ (n i : ℕ) (cs : List Candidate) (i' : ℕ),
      gen_list mcr mch pool t fuel n i = some (cs, i') →
        cs.length = n ∧ ∀ c ∈ cs,
          c.regular.length = 5 ∧ c.regular.Nodup ∧ c.regular.Sorted (· ≤ ·) ∧
            (∀ x ∈ c.regular, 0 ≤ x ∧ x ≤ max_number) ∧
            1 ≤ c.hot ∧ c.hot ≤ hot_number_max := by
  intro n
  induction n with
  | zero =>
      intro i cs i' h
      simp only [gen_list, Option.some.injEq, Prod.mk.injEq] at h
      obtain ⟨rfl, rfl⟩ := h
      exact ⟨rfl, by intro c hc; simp at hc⟩
  | succ n ih =>
      intro i cs i' h
      rw [gen_list] at h
      rcases hgen : generate_candidate mcr mch pool t i fuel with _ | ⟨c0, i1⟩
      · rw [hgen] at h; simp at h
      · rw [hgen] at h
        simp only [] at h
        rcases hrest : gen_list mcr mch pool t fuel n i1 with _ | ⟨cs0, i2⟩
        · rw [hrest] at h; simp at h
        · rw [hrest] at h
          simp only [Option.some.injEq, Prod.mk.injEq] at h
          obtain ⟨rfl, rfl⟩ := h
          obtain ⟨hlen, hall⟩ := ih i1 cs0 i2 hrest
          refine ⟨by simp [hlen], ?_⟩
          intro c hc
          rcases List.mem_cons.1 hc with rfl | hc'
          · exact generate_candidate_spec hmcr hmch hpool hgen
          · exact hall c hc'

/-! ### Termination analysis of the top-up loop -/

theorem topUp_terminates (t : ℕ → ℕ) :
    ∀ (k i : ℕ) (s : Finset ℤ), 5 ≤ (s ∪ topupPicks t i k).card →
      ∃ r, topUp k s t i = some r := by
  intro k
  induction k with
  | zero =>
      intro i s h
      rw [show topupPicks t i 0 = ∅ from rfl, Finset.union_empty] at h
      exact ⟨(s, i), by simp [topUp, h]⟩
  | succ k ih =>
      intro i s h
      by_cases hc : 5 ≤ s.card
      · exact ⟨(s, i), by simp [topUp, hc]⟩
      · have hred : topUp (k + 1) s t i =
            topUp k (insert (randint 0 max_number t i).1 s) t (i + 1) := by
          simp [topUp, hc, randint]
        have hunion : insert (randint 0 max_number t i).1 s ∪ topupPicks t (i + 1) k =
            s ∪ topupPicks t i (k + 1) := by
          rw [show topupPicks t i (k + 1) =
              insert (randint 0 max_number t i).1 (topupPicks t (i + 1) k) from rfl]
          ext x
          simp only [Finset.mem_union, Finset.mem_insert]
          tauto
        rw [hred]
        exact ih (i + 1) _ (by rw [hunion]; exact h)

theorem topUp_stuck (t : ℕ → ℕ) (s : Finset ℤ)
    (hmem : ∀ j, (randint 0 max_number t j).1 ∈ s) (hcard : s.card < 5) :
    ∀ fuel i, topUp fuel s t i = none := by
  intro fuel
  induction fuel with
  | zero =>
      intro i
      simp [topUp, show ¬ 5 ≤ s.card from by omega]
  | succ fuel ih =>
      intro i
      have hins : insert (randint 0 max_number t i).1 s = s :=
        Finset.insert_eq_self.2 (hmem i)
      have hred : topUp (fuel + 1) s t i =
          topUp fuel (insert (randint 0 max_number t i).1 s) t (i + 1) := by
        simp [topUp, show ¬ 5 ≤ s.card from by omega, randint]
      rw [hred, hins]
      exact ih (i + 1)

/-! ### Lemmas about `chaos_theory_analysis` -/

theorem total_numbers_foldl (self : List Draw) :
    ∀ acc : List ℤ,
      self.foldl (fun acc result => acc ++ result.regular ++ [result.hot]) acc =
        acc ++ self.flatMap (fun d => d.regular ++ [d.hot]) := by
  induction self with
  | nil => intro acc; simp
  | cons d rest ih =>
      intro acc
      rw [List.foldl_cons, ih]
      simp

theorem total_numbers_eq (self : List Draw) :
    total_numbers self = self.flatMap (fun d => d.regular ++ [d.hot]) := by
  have h := total_numbers_foldl self []
  simpa [total_numbers] using h

theorem total_numbers_length_ge (self : List Draw) :
    self.length ≤ (total_numbers self).length := by
  rw [total_numbers_eq]
  induction self with
  | nil => simp
  | cons d rest ih =>
      simp only [List.flatMap_cons, List.length_append, List.length_cons] at ih ⊢
      omega

theorem zip_tail_map_eq (g : ℤ → ℤ → ℝ) :
    ∀ l : List ℤ, (l.zip l.tail).map (fun p => g p.1 p.2) =
      (List.range (l.length - 1)).map (fun k => g (l.getD k 0) (l.getD (k + 1) 0)) := by
  intro l
  induction l with
  | nil => simp
  | cons x rest ih =>
      cases rest with
      | nil => simp
      | cons y rest2 =>
          have hlhs : ((x :: y :: rest2).zip (x :: y :: rest2).tail).map
                (fun p => g p.1 p.2) =
              g x y :: (((y :: rest2).zip (y :: rest2).tail).map (fun p => g p.1 p.2)) := rfl
          rw [hlhs, ih]
          have hlen : (x :: y :: rest2).length - 1 = ((y :: rest2).length - 1) + 1 := by
            simp
          rw [hlen, List.range_succ_eq_map, List.map_cons, List.map_map]
          rfl

/-! ### Claim-side reference formulations -/

/-! ### Lemmas about `avg_range` -/

theorem bucketCounts_length (reg : List ℤ) : (bucketCounts reg).length = 4 := by
  have h : ∀ (l : List ℤ) (acc : List ℕ), acc.length = 4 →
      (l.foldl (fun ranges num => ranges.set (min 3 (num / 11)).toNat
        (ranges.getD (min 3 (num / 11)).toNat 0 + 1)) acc).length = 4 := by
    intro l
    induction l with
    | nil => intro acc h; simpa using h
    | cons a rest ih =>
        intro acc h
        rw [List.foldl_cons]
        exact ih _ (by simp [List.length_set, h])
  exact h reg [0, 0, 0, 0] rfl

theorem zipWith_add_getD {a b : List ℕ} {i : ℕ} (ha : i < a.length) (hb : i < b.length) :
    (List.zipWith (· + ·) a b).getD i 0 = a.getD i 0 + b.getD i 0 := by
  rw [List.getD_eq_getElem _ _ (by rw [List.length_zipWith]; omega),
      List.getD_eq_getElem _ _ ha, List.getD_eq_getElem _ _ hb,
      List.getElem_zipWith]

theorem foldl_zipWith_getD (i : ℕ) (hi : i < 4) :
    ∀ (dists : List (List ℕ)) (acc : List ℕ), acc.length = 4 →
      (∀ dist ∈ dists, dist.length = 4) →
      ((dists.foldl (fun acc dist => List.zipWith (· + ·) acc dist) acc).getD i 0 =
        acc.getD i 0 + (dists.map (fun d => d.getD i 0)).sum) ∧
      (dists.foldl (fun acc dist => List.zipWith (· + ·) acc dist) acc).length = 4 := by
  intro dists
  induction dists with
  | nil => intro acc ha _; exact ⟨by simp, by simpa using ha⟩
  | cons d rest ih =>
      intro acc ha hall
      have hd : d.length = 4 := hall d (by simp)
      have hlen : (List.zipWith (· + ·) acc d).length = 4 := by
        rw [List.length_zipWith]; omega
      obtain ⟨h1, h2⟩ := ih (List.zipWith (· + ·) acc d) hlen
        (fun x hx => hall x (by simp [hx]))
      constructor
      · rw [List.foldl_cons, h1, zipWith_add_getD (by omega) (by omega),
          List.map_cons, List.sum_cons]
        ring
      · rw [List.foldl_cons]; exact h2

theorem avg_range_getD (self : List Draw) (i : ℕ) (hi : i < 4) :
    (avg_range self).getD i 0 =
      ((self.map (fun d => ((bucketCounts d.regular).getD i 0 : ℚ))).sum) / self.length := by
  have hdists : (patterns_core self).range_distribution =
      self.map (fun result => bucketCounts result.regular) := rfl
  obtain ⟨hsum, hsums_len⟩ := foldl_zipWith_getD i hi
    (self.map (fun result => bucketCounts result.regular)) [0, 0, 0, 0] rfl
    (by intro dist hdist
        obtain ⟨d, _, rfl⟩ := List.mem_map.1 hdist
        exact bucketCounts_length d.regular)
  have hacc0 : ([0, 0, 0, 0] : List ℕ).getD i 0 = 0 := by
    interval_cases i <;> rfl
  simp only [avg_range, hdists]
  rw [show (0 : ℚ) = (fun (r : ℕ) => (r : ℚ) /
      ((self.map (fun result => bucketCounts result.regular)).length : ℚ)) 0 by simp]
  rw [List.getD_map]
  rw [hsum, hacc0]
  push_cast
  simp [List.map_map, Function.comp_def, List.length_map]

/-! ### Store invariants through `add_result` -/

theorem dedup_length_eq_iff {l : List ℤ} : l.dedup.length = l.length ↔ l.Nodup := by
  constructor
  · intro h
    have heq := l.dedup_sublist.eq_of_length h
    rw [← heq]
    exact l.nodup_dedup
  · intro h
    rw [h.dedup]

theorem add_result_wf {self : List Draw}
    (hwf : ∀ d ∈ self, WFDraw d ∧ d.regular.Sorted (· ≤ ·)) (r : List ℤ) (h : ℤ) :
    ∀ d ∈ (add_result self r h).1, WFDraw d ∧ d.regular.Sorted (· ≤ ·) := by
  intro d hd
  rw [add_result] at hd
  split at hd
  · exact hwf d hd
  next h1 =>
  split at hd
  · exact hwf d hd
  next h2 =>
  split at hd
  · exact hwf d hd
  next h3 =>
  split at hd
  · exact hwf d hd
  next h4 =>
  simp only [List.mem_append, List.mem_singleton] at hd
  rcases hd with hd | rfl
  · exact hwf d hd
  · have hlen5 : r.length = 5 := by omega
    have hperm := List.perm_insertionSort (· ≤ ·) r
    have hnodup : r.Nodup := dedup_length_eq_iff.1 (by omega)
    have hrange : ∀ x ∈ r, 0 ≤ x ∧ x ≤ max_number := by
      intro x hx
      by_contra hcon
      apply h2
      rw [List.any_eq_true]
      refine ⟨x, hx, ?_⟩
      rw [decide_eq_true_iff]
      omega
    have hhot : 1 ≤ h ∧ h ≤ hot_number_max := by
      obtain ⟨ha, hb⟩ := not_or.1 h3
      exact ⟨by omega, by omega⟩
    refine ⟨?_, List.sorted_insertionSort (· ≤ ·) r⟩
    simp only [WFDraw]
    refine ⟨?_, ?_, ?_, hhot.1, hhot.2⟩
    · rw [hperm.length_eq, hlen5]
    · exact hperm.nodup_iff.2 hnodup
    · intro x hx
      exact hrange x (hperm.mem_iff.1 hx)

theorem buildStore_wf (inputs : List (List ℤ × ℤ)) :
    ∀ d ∈ buildStore inputs, WFDraw d ∧ d.regular.Sorted (· ≤ ·) := by
  rw [buildStore]
  suffices h : ∀ (l : List (List ℤ × ℤ)) (st : List Draw),
      (∀ d ∈ st, WFDraw d ∧ d.regular.Sorted (· ≤ ·)) →
      ∀ d ∈ l.foldl (fun st p => (add_result st p.1 p.2).1) st,
        WFDraw d ∧ d.regular.Sorted (· ≤ ·) by
    exact h inputs [] (by simp)
  intro l
  induction l with
  | nil => intro st h; simpa using h
  | cons p rest ih =>
      intro st h
      rw [List.foldl_cons]
      exact ih _ (add_result_wf h p.1 p.2)

theorem sum_map_regular_length :
    ∀ self : List Draw, (∀ d ∈ self, d.regular.length = 5) →
      (self.map (fun d => d.regular.length)).sum = 5 * self.length := by
  intro self
  induction self with
  | nil => intro _; simp
  | cons d rest ih =>
      intro hlen
      simp only [List.map_cons, List.sum_cons, List.length_cons]
      rw [hlen d (by simp), ih (fun x hx => hlen x (by simp [hx]))]
      ring

theorem analyze_frequency_total {self : List Draw}
    (hlen : ∀ d ∈ self, d.regular.length = 5) :
    counterTotal (analyze_frequency self).1 = 5 * self.length := by
  rw [analyze_frequency, freqFold_total_fst]
  rw [sum_map_regular_length self hlen]
  simp [counterTotal]

theorem differences_length (self : List Draw) :
    (((total_numbers self).zip (total_numbers self).tail).map
      (fun p => |p.2 - p.1|)).length = (total_numbers self).length - 1 := by
  rw [List.length_map, List.length_zip, List.length_tail]
  omega

theorem differences_ne_nil {self : List Draw} (h3 : 3 ≤ self.length) :
    ((total_numbers self).zip (total_numbers self).tail).map
      (fun p => |p.2 - p.1|) ≠ [] := by
  intro hc
  have hlen := differences_length self
  rw [hc] at hlen
  have := total_numbers_length_ge self
  simp at hlen
  omega

theorem chaos_theory_eval {self : List Draw} (h3 : 3 ≤ self.length) :
    chaos_theory_analysis self =
      .ok ⟨chaosEstimate self, chaosEstimate self > 0⟩ := by
  rw [chaos_theory_analysis]
  rw [if_neg (by omega)]
  rw [if_neg (differences_ne_nil h3)]
  rfl

theorem logTerm_eq (x y : ℤ) :
    (if |y - x| ≠ 0 then Real.log |((|y - x| : ℤ) : ℝ)| else 0) =
      (if |y - x| = 0 then (0 : ℝ) else Real.log ((|y - x| : ℤ) : ℝ)) := by
  by_cases h : |y - x| = 0
  · simp [h]
  · rw [if_pos h, if_neg h]
    congr 1
    exact abs_of_nonneg (Int.cast_nonneg.2 (abs_nonneg (y - x)))

theorem chaosEstimate_eq_spec (self : List Draw) :
    chaosEstimate self = lyapunovSpec self := by
  simp only [chaosEstimate, lyapunovSpec]
  rw [total_numbers_eq]
  have h1 : ∀ l : List ℤ, ((l.zip l.tail).map (fun p : ℤ × ℤ => |p.2 - p.1|)).map
        (fun (d : ℤ) => if d ≠ 0 then Real.log |(d : ℝ)| else 0) =
      (l.zip l.tail).map (fun p : ℤ × ℤ =>
        if |p.2 - p.1| ≠ 0 then Real.log |((|p.2 - p.1| : ℤ) : ℝ)| else 0) := by
    intro l
    rw [List.map_map]
    rfl
  have hzip := zip_tail_map_eq
    (fun x y : ℤ => if |y - x| ≠ 0 then Real.log |((|y - x| : ℤ) : ℝ)| else 0)
    (self.flatMap (fun d => d.regular ++ [d.hot]))
  have hdlen : (((self.flatMap (fun d => d.regular ++ [d.hot])).zip
        (self.flatMap (fun d => d.regular ++ [d.hot])).tail).map
        (fun p : ℤ × ℤ => |p.2 - p.1|)).length =
      (self.flatMap (fun d => d.regular ++ [d.hot])).length - 1 := by
    rw [List.length_map, List.length_zip, List.length_tail]
    omega
  rw [h1, hzip, hdlen]
  congr 1
  congr 1
  apply List.map_congr_left
  intro k _
  exact logTerm_eq ((self.flatMap (fun d => d.regular ++ [d.hot])).getD k 0)
    ((self.flatMap (fun d => d.regular ++ [d.hot])).getD (k + 1) 0)

/-- First-match lookup of a cast key in the table built over `List.range`:
for any key in the list the first (hence unique) hit carries `f` of it. -/
theorem lookup_map_range {l : List ℕ} {f : ℕ → ℤ} {j : ℕ} (hj : j ∈ l) :
    ((l.map (fun (i : ℕ) => ((i : ℤ), f i))).lookup (j : ℤ)) = some (f j) := by
  induction l with
  | nil => simp at hj
  | cons a rest ih =>
      rcases List.mem_cons.1 hj with rfl | hj'
      · simp [List.lookup]
      · by_cases hja : a = j
        · subst hja; simp [List.lookup]
        · have hne : ((j : ℕ) : ℤ) ≠ ((a : ℕ) : ℤ) := by
            intro hc
            exact hja (by exact_mod_cast hc.symm)
          simp only [List.map_cons, List.lookup,
            show (((j : ℕ) : ℤ) == ((a : ℕ) : ℤ)) = false from beq_eq_false_iff_ne.2 hne]
          exact ih hj'

theorem fillAttempts_fail (min_val max_val : ℤ) (t : ℕ → ℕ) :
    ∀ (k : ℕ) (s : Finset ℤ) (i : ℕ),
      (∀ j < k, (randint min_val max_val t (i + j)).1 ∈ s) →
      fillAttempts min_val max_val k s t i = (s, i + k) := by
  intro k
  induction k with
  | zero => intro s i _; simp [fillAttempts]
  | succ k ih =>
      intro s i hall
      have h0 : (randint min_val max_val t i).1 ∈ s := by
        have h := hall 0 (by omega)
        simpa using h
      have hred : fillAttempts min_val max_val (k + 1) s t i =
          fillAttempts min_val max_val k s t (i + 1) := by
        simp only [randint] at h0
        simp [fillAttempts, randint, h0]
      have hshift : ∀ j < k, (randint min_val max_val t (i + 1 + j)).1 ∈ s := by
        intro j hj
        have h := hall (j + 1) (by omega)
        rwa [show i + (j + 1) = i + 1 + j from by omega] at h
      rw [hred, ih s (i + 1) hshift]
      rw [show i + 1 + k = i + (k + 1) from by omega]

/-! ### Claim theorems -/

/-- C3: `add_result` fails exactly when the regular list does not have
length 5, some regular value lies outside `[0, 43]`, the hot value lies
outside `[1, 16]`, or the regular values repeat; a failure leaves the store
unchanged, and a success grows it by exactly one draw. -/
theorem add_result_validates (self : List Draw) (r : List ℤ) (h : ℤ) :
    ((add_result self r h).2.isSome ↔
      (r.length ≠ 5 ∨ (∃ x ∈ r, x < 0 ∨ max_number < x) ∨
        h < 1 ∨ hot_number_max < h ∨ ¬ r.Nodup)) ∧
    ((add_result self r h).2.isSome → (add_result self r h).1 = self) ∧
    ((add_result self r h).2 = none →
      (add_result self r h).1.length = self.length + 1) := by
  have hany : (r.any (fun num => decide (num < 0 ∨ num > max_number)) = true) ↔
      ∃ x ∈ r, x < 0 ∨ max_number < x := by
    rw [List.any_eq_true]
    constructor
    · rintro ⟨x, hx, hd⟩; exact ⟨x, hx, by simpa using hd⟩
    · rintro ⟨x, hx, hd⟩; exact ⟨x, hx, by simpa using hd⟩
  by_cases h1 : r.length ≠ 5
  · have hval : add_result self r h =
        (self, some "Se necesitan exactamente 5 números regulares") := by
      rw [add_result, if_pos h1]
    rw [hval]
    exact ⟨by simp [h1], fun _ => rfl, by simp⟩
  · by_cases h2 : r.any (fun num => decide (num < 0 ∨ num > max_number)) = true
    · have hval : add_result self r h =
          (self, some "Los números regulares deben estar entre 0 y 43") := by
        rw [add_result, if_neg h1, if_pos h2]
      rw [hval]
      exact ⟨by simp [hany.1 h2], fun _ => rfl, by simp⟩
    · by_cases h3 : h < 1 ∨ h > hot_number_max
      · have hval : add_result self r h =
            (self, some "El número caliente debe estar entre 1 y 16") := by
          rw [add_result, if_neg h1, if_neg h2, if_pos h3]
        rw [hval]
        refine ⟨?_, fun _ => rfl, by simp⟩
        simp only [Option.isSome_some, true_iff]
        rcases h3 with h3 | h3
        · exact Or.inr (Or.inr (Or.inl h3))
        · exact Or.inr (Or.inr (Or.inr (Or.inl h3)))
      · by_cases h4 : r.dedup.length ≠ r.length
        · have hval : add_result self r h =
              (self, some "Los números regulares no deben repetirse") := by
            rw [add_result, if_neg h1, if_neg h2, if_neg h3, if_pos h4]
          rw [hval]
          refine ⟨?_, fun _ => rfl, by simp⟩
          simp only [Option.isSome_some, true_iff]
          exact Or.inr (Or.inr (Or.inr (Or.inr
            (fun hnd => h4 (dedup_length_eq_iff.2 hnd)))))
        · have hval : add_result self r h =
              (self ++ [{ regular := List.insertionSort (· ≤ ·) r, hot := h }],
                none) := by
            rw [add_result, if_neg h1, if_neg h2, if_neg h3, if_neg h4]
          rw [hval]
          have hfalse : ¬ (r.length ≠ 5 ∨ (∃ x ∈ r, x < 0 ∨ max_number < x) ∨
              h < 1 ∨ hot_number_max < h ∨ ¬ r.Nodup) := by
            push_neg
            refine ⟨by omega, ?_, ?_, ?_, ?_⟩
            · intro x hx
              constructor
              · by_contra hc
                exact h2 (hany.2 ⟨x, hx, Or.inl (by omega)⟩)
              · by_contra hc
                exact h2 (hany.2 ⟨x, hx, Or.inr (by omega)⟩)
            · have := not_or.1 h3
              omega
            · have := not_or.1 h3
              omega
            · exact dedup_length_eq_iff.1 (by omega)
          exact ⟨by simp [hfalse], by simp, by simp⟩

/-- Witness for C3: a duplicate-regular input is rejected and the store is
left unchanged. -/
theorem add_result_validates_witness : (add_result [] [0, 1, 2, 3, 3] 1).1 = [] :=
  (add_result_validates [] [0, 1, 2, 3, 3] 1).2.1 (by decide)

/-- C4: `analyze_patterns` succeeds exactly on stores of at least 2 draws,
`chaos_theory_analysis` and `predict_next_result` exactly on stores of at
least 3 draws (whatever count, tape, index and fuel the generator is run
with); in particular each succeeds at its floor count. -/
theorem floor_guards (self : List Draw) (n : ℕ) (t : ℕ → ℕ) (i fuel : ℕ) :
    ((∃ v, analyze_patterns self = .ok v) ↔ 2 ≤ self.length) ∧
    ((∃ v, chaos_theory_analysis self = .ok v) ↔ 3 ≤ self.length) ∧
    ((∃ v, predict_next_result self n t i fuel = .ok v) ↔ 3 ≤ self.length) := by
  refine ⟨⟨?_, ?_⟩, ⟨?_, ?_⟩, ⟨?_, ?_⟩⟩
  · rintro ⟨v, hv⟩
    by_contra hlt
    rw [analyze_patterns, if_pos (by omega)] at hv
    simp at hv
  · intro h2
    rw [analyze_patterns, if_neg (by omega)]
    exact ⟨_, rfl⟩
  · rintro ⟨v, hv⟩
    by_contra hlt
    rw [chaos_theory_analysis, if_pos (by omega)] at hv
    simp at hv
  · intro h3
    exact ⟨_, chaos_theory_eval h3⟩
  · rintro ⟨v, hv⟩
    by_contra hlt
    rw [predict_next_result, if_pos (by omega)] at hv
    simp at hv
  · intro h3
    rw [predict_next_result, if_neg (by omega)]
    exact ⟨_, rfl⟩

/-- C5: every store reachable by appends from the empty store keeps each
draw's regulars sorted ascending, and the counts of the regular frequency
table total `5 ×` the store size. -/
theorem store_invariants (inputs : List (List ℤ × ℤ)) :
    (∀ d ∈ buildStore inputs, d.regular.Sorted (· ≤ ·)) ∧
    counterTotal (analyze_frequency (buildStore inputs)).1 =
      5 * (buildStore inputs).length := by
  refine ⟨fun d hd => (buildStore_wf inputs d hd).2, ?_⟩
  exact analyze_frequency_total (fun d hd => (buildStore_wf inputs d hd).1.1)

/-- Witness for C5 at a one-append input list. -/
theorem store_invariants_witness :
    counterTotal (analyze_frequency (buildStore [([3, 1, 2, 4, 0], 5)])).1 =
      5 * (buildStore [([3, 1, 2, 4, 0], 5)]).length :=
  (store_invariants [([3, 1, 2, 4, 0], 5)]).2

/-- C9: running each analysis twice in sequence on the store state yields
the same result both times, and the state after each call is the original
store (the method bodies read `self.historical_results` and never assign
it). -/
theorem analyses_idempotent (self : List Draw) :
    ((frequencyOp ((frequencyOp self).2)).1 = (frequencyOp self).1 ∧
      (frequencyOp ((frequencyOp self).2)).2 = self) ∧
    ((patternsOp ((patternsOp self).2)).1 = (patternsOp self).1 ∧
      (patternsOp ((patternsOp self).2)).2 = self) ∧
    ((chaosOp ((chaosOp self).2)).1 = (chaosOp self).1 ∧
      (chaosOp ((chaosOp self).2)).2 = self) ∧
    ((enigmaOp ((enigmaOp self).2)).1 = (enigmaOp self).1 ∧
      (enigmaOp ((enigmaOp self).2)).2 = self) :=
  ⟨⟨rfl, rfl⟩, ⟨rfl, rfl⟩, ⟨rfl, rfl⟩, ⟨rfl, rfl⟩⟩

/-- C10: with at least 3 stored draws (and validated draws, as every stored
draw is), `most_common_regular` holds at least 5 values and
`most_common_hot` at least 1, so the guards on them never skip work and the
hot pick always comes from `most_common_hot`, never from the uniform
fallback. -/
theorem frequent_lists_nonempty (self : List Draw) (h3 : 3 ≤ self.length)
    (hwf : WFStore self) :
    5 ≤ (most_common_regular self).length ∧
    1 ≤ (most_common_hot self).length ∧
    most_common_regular self ≠ [] ∧ most_common_hot self ≠ [] ∧
    (∀ (t : ℕ → ℕ) (i : ℕ),
      (hot_pick (most_common_hot self) t i).1 ∈ most_common_hot self) := by
  refine ⟨most_common_regular_length h3 hwf, most_common_hot_length h3, ?_,
    most_common_hot_ne_nil h3, ?_⟩
  · intro hnil
    have h5 := most_common_regular_length h3 hwf
    rw [hnil] at h5
    simp at h5
  · intro t i
    rw [hot_pick, if_pos (most_common_hot_ne_nil h3)]
    exact choice_fst_mem (most_common_hot_ne_nil h3) t i

/-- Witness for C10 at the concrete store. -/
theorem frequent_lists_nonempty_witness :
    5 ≤ (most_common_regular storeA).length :=
  (frequent_lists_nonempty storeA (by decide) (by decide)).1

/-- C1: whenever `predict_next_result` on a store of at least 3 validated
draws returns a result (any tape, any index, any sufficient fuel), it is a
list of exactly `n` candidates, each with 5 distinct regulars in `[0, 43]`
sorted ascending and a hot value in `[1, 16]`. -/
theorem predict_shape_valid (self : List Draw) (h3 : 3 ≤ self.length)
    (hwf : WFStore self) (n : ℕ) (hn : 0 < n) (t : ℕ → ℕ) (i fuel : ℕ)
    (ps : List Candidate)
    (hres : predict_next_result self n t i fuel = .ok (some ps)) :
    ps.length = n ∧ ∀ c ∈ ps,
      c.regular.length = 5 ∧ c.regular.Nodup ∧ c.regular.Sorted (· ≤ ·) ∧
        (∀ x ∈ c.regular, 0 ≤ x ∧ x ≤ max_number) ∧
        1 ≤ c.hot ∧ c.hot ≤ hot_number_max := by
  rw [predict_next_result, if_neg (by omega)] at hres
  simp only [Except.ok.injEq] at hres
  rcases hgl : gen_list (most_common_regular self) (most_common_hot self)
      (ranges_to_pick (avg_range self)) t fuel n i with _ | ⟨cs, i2⟩
  · rw [hgl] at hres
    simp at hres
  · rw [hgl] at hres
    simp only [Option.map_some'] at hres
    obtain rfl : cs = ps := Option.some.inj hres
    exact gen_list_spec (most_common_regular_range hwf) (most_common_hot_range hwf)
      (fun x hx => ranges_to_pick_mem hx) n i cs i2 hgl

/-- C2 counterexample: on `storeA`, bucket 0's average count is `4/3`, so
`avg * 2 = 8/3`; the code's pool holds bucket 0 `max(1, int(8/3)) = 2`
times while arithmetic rounding as claimed would demand
`max(1, round(8/3)) = 3`. -/
theorem storeA_avg0 : (avg_range storeA).getD 0 0 = 4 / 3 := by
  rw [avg_range_getD storeA 0 (by norm_num)]
  rw [show storeA.map (fun d => ((bucketCounts d.regular).getD 0 0 : ℚ)) =
      [((4 : ℕ) : ℚ), ((0 : ℕ) : ℚ), ((0 : ℕ) : ℚ)] from by
    rw [show storeA = [⟨[0, 1, 2, 3, 11], 1⟩, ⟨[11, 12, 13, 14, 15], 2⟩,
        ⟨[22, 23, 24, 25, 26], 3⟩] from rfl]
    simp only [List.map_cons, List.map_nil]
    rw [show (bucketCounts [0, 1, 2, 3, 11]).getD 0 0 = 4 from by decide,
        show (bucketCounts [11, 12, 13, 14, 15]).getD 0 0 = 0 from by decide,
        show (bucketCounts [22, 23, 24, 25, 26]).getD 0 0 = 0 from by decide]]
  norm_num [storeA]

theorem storeA_avg1 : (avg_range storeA).getD 1 0 = 2 := by
  rw [avg_range_getD storeA 1 (by norm_num)]
  rw [show storeA.map (fun d => ((bucketCounts d.regular).getD 1 0 : ℚ)) =
      [((1 : ℕ) : ℚ), ((5 : ℕ) : ℚ), ((0 : ℕ) : ℚ)] from by
    rw [show storeA = [⟨[0, 1, 2, 3, 11], 1⟩, ⟨[11, 12, 13, 14, 15], 2⟩,
        ⟨[22, 23, 24, 25, 26], 3⟩] from rfl]
    simp only [List.map_cons, List.map_nil]
    rw [show (bucketCounts [0, 1, 2, 3, 11]).getD 1 0 = 1 from by decide,
        show (bucketCounts [11, 12, 13, 14, 15]).getD 1 0 = 5 from by decide,
        show (bucketCounts [22, 23, 24, 25, 26]).getD 1 0 = 0 from by decide]]
  norm_num [storeA]

theorem storeA_avg2 : (avg_range storeA).getD 2 0 = 5 / 3 := by
  rw [avg_range_getD storeA 2 (by norm_num)]
  rw [show storeA.map (fun d => ((bucketCounts d.regular).getD 2 0 : ℚ)) =
      [((0 : ℕ) : ℚ), ((0 : ℕ) : ℚ), ((5 : ℕ) : ℚ)] from by
    rw [show storeA = [⟨[0, 1, 2, 3, 11], 1⟩, ⟨[11, 12, 13, 14, 15], 2⟩,
        ⟨[22, 23, 24, 25, 26], 3⟩] from rfl]
    simp only [List.map_cons, List.map_nil]
    rw [show (bucketCounts [0, 1, 2, 3, 11]).getD 2 0 = 0 from by decide,
        show (bucketCounts [11, 12, 13, 14, 15]).getD 2 0 = 0 from by decide,
        show (bucketCounts [22, 23, 24, 25, 26]).getD 2 0 = 5 from by decide]]
  norm_num [storeA]

theorem storeA_avg3 : (avg_range storeA).getD 3 0 = 0 := by
  rw [avg_range_getD storeA 3 (by norm_num)]
  rw [show storeA.map (fun d => ((bucketCounts d.regular).getD 3 0 : ℚ)) =
      [((0 : ℕ) : ℚ), ((0 : ℕ) : ℚ), ((0 : ℕ) : ℚ)] from by
    rw [show storeA = [⟨[0, 1, 2, 3, 11], 1⟩, ⟨[11, 12, 13, 14, 15], 2⟩,
        ⟨[22, 23, 24, 25, 26], 3⟩] from rfl]
    simp only [List.map_cons, List.map_nil]
    rw [show (bucketCounts [0, 1, 2, 3, 11]).getD 3 0 = 0 from by decide,
        show (bucketCounts [11, 12, 13, 14, 15]).getD 3 0 = 0 from by decide,
        show (bucketCounts [22, 23, 24, 25, 26]).getD 3 0 = 0 from by decide]]
  norm_num [storeA]

theorem storeA_pool :
    ranges_to_pick (avg_range storeA) = [0, 0, 1, 1, 1, 1, 2, 2, 2, 3] := by
  rw [ranges_to_pick_unfold, storeA_avg0, storeA_avg1, storeA_avg2, storeA_avg3]
  norm_num
  decide

theorem pool_weights_counterexample :
    (ranges_to_pick (avg_range storeA)).count 0 = 2 ∧
      max 1 (ratRound ((avg_range storeA).getD 0 0 * 2)) = 3 := by
  constructor
  · rw [show (0 : ℤ) = ((0 : ℕ) : ℤ) from rfl,
      ranges_to_pick_count (avg_range storeA) 0 (by norm_num), storeA_avg0]
    norm_num
    decide
  · rw [storeA_avg0, ratRound]
    norm_num

/-- C2 (amended): the pool holds bucket `i` exactly
`max(1, int(avg * 2))` times — `int` truncates the doubled component-wise
mean instead of rounding it; a ranged slot is abandoned after exactly 10
failed duplicate tries, consuming exactly 10 picks and leaving the set
unchanged; and every ranged pick lies in `[11 i, min(43, 11 i + 10)]`, each
value of that interval being reachable. -/
theorem pool_weights_amended (self : List Draw) (i : ℕ) (hi : i < 4) :
    ((ranges_to_pick (avg_range self)).count (i : ℤ) =
      max 1 (Int.toNat ⌊((self.map
        (fun d => ((bucketCounts d.regular).getD i 0 : ℚ))).sum /
          (self.length : ℚ)) * 2⌋)) ∧
    (∀ (t : ℕ → ℕ) (j : ℕ) (s : Finset ℤ),
      (∀ a < 10, (randint ((i : ℤ) * 11)
        (min max_number (((i : ℤ) + 1) * 11 - 1)) t (j + a)).1 ∈ s) →
      fillAttempts ((i : ℤ) * 11) (min max_number (((i : ℤ) + 1) * 11 - 1))
        10 s t j = (s, j + 10)) ∧
    (∀ (t : ℕ → ℕ) (j : ℕ),
      (i : ℤ) * 11 ≤ (randint ((i : ℤ) * 11)
        (min max_number (((i : ℤ) + 1) * 11 - 1)) t j).1 ∧
      (randint ((i : ℤ) * 11) (min max_number (((i : ℤ) + 1) * 11 - 1)) t j).1 ≤
        min max_number (((i : ℤ) + 1) * 11 - 1)) ∧
    (∀ v : ℤ, (i : ℤ) * 11 ≤ v → v ≤ min max_number (((i : ℤ) + 1) * 11 - 1) →
      ∀ j : ℕ, (randint ((i : ℤ) * 11) (min max_number (((i : ℤ) + 1) * 11 - 1))
        (fun _ => (v - (i : ℤ) * 11).toNat) j).1 = v) := by
  have hile : (i : ℤ) ≤ 3 := by exact_mod_cast Nat.lt_succ_iff.mp hi
  have hmm : (i : ℤ) * 11 ≤ min max_number (((i : ℤ) + 1) * 11 - 1) := by
    simp only [max_number]
    omega
  refine ⟨?_, ?_, ?_, ?_⟩
  · rw [ranges_to_pick_count (avg_range self) i hi, avg_range_getD self i hi]
  · intro t j s hall
    exact fillAttempts_fail ((i : ℤ) * 11)
      (min max_number (((i : ℤ) + 1) * 11 - 1)) t 10 s j hall
  · intro t j
    exact randint_fst_mem hmm t j
  · intro v hv1 hv2 j
    exact randint_fst_surj hv1 hv2 j

/-- Witness for C2 (amended) at `storeA`, bucket 0. -/
theorem pool_weights_amended_witness :
    (ranges_to_pick (avg_range storeA)).count ((0 : ℕ) : ℤ) =
      max 1 (Int.toNat ⌊((storeA.map
        (fun d => ((bucketCounts d.regular).getD 0 0 : ℚ))).sum /
          (storeA.length : ℚ)) * 2⌋) :=
  (pool_weights_amended storeA 0 (by decide)).1

/-- C6: on a store of at least 3 draws, `chaos_theory_analysis` returns the
mean of `ln` over the nonzero consecutive absolute differences of the
flattened stream (zero differences contributing `0`, the divisor counting
all differences), and `is_chaotic` holds exactly when that estimate is
positive. -/
theorem chaos_matches_spec (self : List Draw) (h3 : 3 ≤ self.length) :
    ∃ c, chaos_theory_analysis self = .ok c ∧
      c.lyapunov_estimate = lyapunovSpec self ∧
      (c.is_chaotic ↔ 0 < c.lyapunov_estimate) :=
  ⟨⟨chaosEstimate self, chaosEstimate self > 0⟩, chaos_theory_eval h3,
    chaosEstimate_eq_spec self, Iff.rfl⟩

/-- Witness for C6: the analysis succeeds on the concrete store. -/
theorem chaos_matches_spec_witness :
    (chaos_theory_analysis storeA).toOption.isSome = true := by
  obtain ⟨c, hc, -, -⟩ := chaos_matches_spec storeA (by decide)
  rw [hc]
  rfl

theorem sort_eq_of_sorted_nodup (s : Finset ℤ) (l : List ℤ) (hnd : l.Nodup)
    (hs : l.Sorted (· ≤ ·)) (hmem : ∀ x, x ∈ s ↔ x ∈ l) :
    s.sort (· ≤ ·) = l := by
  apply List.eq_of_perm_of_sorted ?_ (s.sort_sorted (· ≤ ·)) hs
  apply (List.perm_ext_iff_of_nodup (s.sort_nodup (· ≤ ·)) hnd).2
  intro a
  rw [Finset.mem_sort]
  exact hmem a

theorem storeA_mcr :
    most_common_regular storeA = [11, 0, 1, 2, 3, 12, 13, 14, 15, 22] := by decide

theorem storeA_mch : most_common_hot storeA = [1, 2, 3] := by decide

theorem storeA_sort :
    Finset.sort (· ≤ ·) ({0, 1, 11, 15, 17} : Finset ℤ) = [0, 1, 11, 15, 17] :=
  sort_eq_of_sorted_nodup _ _ (by decide) (by decide) (fun x => by simp)

theorem storeA_gen :
    generate_candidate [11, 0, 1, 2, 3, 12, 13, 14, 15, 22] [1, 2, 3]
      [0, 0, 1, 1, 1, 1, 2, 2, 2, 3] (fun j => j) 0 10 =
      some (⟨[0, 1, 11, 15, 17], 2⟩, 8) := by
  rw [generate_candidate]
  rw [show pickFrequent [11, 0, 1, 2, 3, 12, 13, 14, 15, 22] 3 ∅ (fun j => j) 0 =
      (({0, 1, 11} : Finset ℤ), 3) from by decide]
  simp only []
  rw [show 5 - ({0, 1, 11} : Finset ℤ).card = 2 from by decide]
  rw [show rangedFill [0, 0, 1, 1, 1, 1, 2, 2, 2, 3] 2 ({0, 1, 11} : Finset ℤ)
      (fun j => j) 3 = (({0, 1, 11, 15, 17} : Finset ℤ), 7) from by decide]
  simp only []
  rw [show topUp 10 ({0, 1, 11, 15, 17} : Finset ℤ) (fun j => j) 7 =
      some (({0, 1, 11, 15, 17} : Finset ℤ), 7) from by decide]
  simp only []
  rw [storeA_sort]
  rw [show hot_pick [1, 2, 3] (fun j => j) 7 = (2, 8) from by decide]
  rfl

theorem storeA_predict :
    predict_next_result storeA 1 (fun j => j) 0 10 =
      .ok (some [⟨[0, 1, 11, 15, 17], 2⟩]) := by
  rw [predict_next_result, if_neg (by decide)]
  show Except.ok ((gen_list (most_common_regular storeA) (most_common_hot storeA)
      (ranges_to_pick (avg_range storeA)) (fun j => j) 10 1 0).map (fun p => p.1)) = _
  rw [storeA_mcr, storeA_mch, storeA_pool]
  rw [gen_list, storeA_gen]
  simp only []
  rw [gen_list]
  rfl

theorem predict_shape_valid_witness :
    ([⟨[0, 1, 11, 15, 17], 2⟩] : List Candidate).length = 1 :=
  (predict_shape_valid storeA (by decide) (by decide) 1 (by decide) (fun j => j) 0 10
    [⟨[0, 1, 11, 15, 17], 2⟩] storeA_predict).1

/-- C7: `enigma_inspired_analysis` fails exactly on the empty store; on any
non-empty validated store it returns the table mapping each `i` in `0..43`
to `(i + S) mod 44`, `S` the sum of the most recent draw's regulars, and
one transformed 5-tuple per draw in store order, the table applied
element-wise; the computation reads no random source. -/
theorem substitution_table (self : List Draw) (hwf : WFStore self) :
    (enigma_inspired_analysis self = .error "No hay datos para analizar" ↔
      self = []) ∧
    (∀ r, enigma_inspired_analysis self = .ok r →
      (∀ i : ℕ, i < 44 →
        r.transformation.lookup (i : ℤ) =
          some (((i : ℤ) + ((self.getLast?).getD ⟨[], 0⟩).regular.sum) % 44)) ∧
      r.transformed_results = self.map (fun d => d.regular.map
        (fun num => (num + ((self.getLast?).getD ⟨[], 0⟩).regular.sum) % 44))) := by
  have h44 : Int.toNat max_number + 1 = 44 := rfl
  have hm44 : (max_number + 1 : ℤ) = 44 := rfl
  constructor
  · constructor
    · intro herr
      by_contra hne
      rw [enigma_inspired_analysis, if_neg hne] at herr
      simp at herr
    · intro hnil
      rw [enigma_inspired_analysis, if_pos hnil]
  · intro r hr
    have hne : self ≠ [] := by
      intro hnil
      rw [enigma_inspired_analysis, if_pos hnil] at hr
      simp at hr
    rw [enigma_inspired_analysis, if_neg hne] at hr
    simp only [Except.ok.injEq] at hr
    obtain rfl := hr.symm
    constructor
    · intro i hi
      show ((List.range (Int.toNat max_number + 1)).map
          (fun (i : ℕ) => ((i : ℤ),
            ((i : ℤ) + ((self.getLast?).getD ⟨[], 0⟩).regular.sum) %
              (max_number + 1)))).lookup (i : ℤ) = _
      rw [lookup_map_range (List.mem_range.2 (by omega)), hm44]
    · show self.map (fun result => result.regular.map (fun num =>
          ((((List.range (Int.toNat max_number + 1)).map
            (fun (i : ℕ) => ((i : ℤ),
              ((i : ℤ) + ((self.getLast?).getD ⟨[], 0⟩).regular.sum) %
                (max_number + 1)))).lookup num).getD 0))) = _
      apply List.map_congr_left
      intro d hd
      apply List.map_congr_left
      intro num hnum
      obtain ⟨-, -, hrange, -, -⟩ := hwf d hd
      obtain ⟨h0, h43⟩ := hrange num hnum
      have htn : ((num.toNat : ℕ) : ℤ) = num := Int.toNat_of_nonneg h0
      rw [← htn]
      rw [lookup_map_range (List.mem_range.2 (by rw [h44]; omega))]
      rw [Option.getD_some, hm44]

/-- Witness for C7 at a one-draw store: the table sends 5 to
`(5 + 15) mod 44 = 20`. -/
theorem substitution_table_witness :
    (enigma_inspired_analysis [⟨[1, 2, 3, 4, 5], 6⟩]).toOption.map
      (fun r => r.transformation.lookup 5) = some (some 20) := by
  obtain ⟨-, hok⟩ := substitution_table [⟨[1, 2, 3, 4, 5], 6⟩] (by decide)
  rcases hr : enigma_inspired_analysis [⟨[1, 2, 3, 4, 5], 6⟩] with msg | r
  · rw [enigma_inspired_analysis, if_neg (by simp)] at hr
    simp at hr
  · have hlook := (hok r hr).1 5 (by omega)
    rw [show ((5 : ℕ) : ℤ) = (5 : ℤ) from rfl] at hlook
    simp only [Except.toOption, Option.map_some']
    rw [hlook]
    decide

/-- C8 counterexample: with the candidate set `{0, 1, 2}` and a random
source that keeps answering `0` (an admissible outcome of every call), the
top-up loop never reaches 5 elements: no amount of fuel makes it return. -/
theorem topup_nontermination_counterexample :
    ¬ ∃ fuel r, topUp fuel ({0, 1, 2} : Finset ℤ) (fun _ => 0) 0 = some r := by
  rintro ⟨fuel, r, hr⟩
  have hmem : ∀ j : ℕ, (randint 0 max_number (fun _ => 0) j).1 ∈ ({0, 1, 2} : Finset ℤ) := by
    intro j
    simp [randint, max_number]
  rw [topUp_stuck (fun _ => 0) {0, 1, 2} hmem (by decide) fuel 0] at hr
  simp at hr

/-- C8 (amended): the top-up loop terminates exactly when the random
stream eventually supplies, together with the starting set, at least 5
distinct values in `[0, 43]`: `k` iterations suffice as soon as the first
`k` picks bring the union to 5 elements.  A stream that forever repeats
used values (possible for an unconstrained outcome) makes it diverge, as
the counterexample shows. -/
theorem topup_termination_amended (s : Finset ℤ) (t : ℕ → ℕ) (i k : ℕ)
    (h5 : 5 ≤ (s ∪ topupPicks t i k).card) :
    ∃ r, topUp k s t i = some r :=
  topUp_terminates t k i s h5

/-- Witness for C8 (amended): the identity tape supplies 0,1,2,3,4 in five
iterations from the empty set. -/
theorem topup_termination_amended_witness :
    (topUp 5 (∅ : Finset ℤ) (fun j => j) 0).isSome = true := by
  obtain ⟨r, hr⟩ := topup_termination_amended ∅ (fun j => j) 0 5 (by decide)
  rw [hr]
  rfl
